import Mathlib

/-!
Shallow embedding of the MATRIX microphone-array capture driver
(`src/matrixio-mic.c`) and proofs of the specification's claims about it.

The driver's session state (`struct matrixio_mic_substream`) is embedded as
`MicState`; the PCM callbacks (`open`, `prepare`, `trigger`, `hw_params`,
`pointer`) and the two interrupt stages (`matrixio_pcm_interrupt`,
`matrixio_pcm_thread`) become pure functions over it.  Machine 16-bit sample
words are carried as `Nat` values; the ring buffer (`runtime->dma_area`) is a
word-indexed map `Nat → Nat`.  Compile-time constants living in headers that
are not among the sources (`MATRIXIO_PERIOD_FRAMES`, `MATRIXIO_CONF_BASE`,
`MATRIXIO_FIR_TAP_SIZE`) are kept as explicit parameters `pf`, `confBase`,
`firTapSize`, so every statement is universally quantified over them.
-/

/-- Driver error codes used by the embedded callbacks (`-EBUSY`, `-EINVAL`,
`-ENOMEM` in the source). -/
inductive Errno where
  | EBUSY
  | EINVAL
  | ENOMEM
deriving DecidableEq, Repr

/-- Return values of an interrupt handler (`irqreturn_t`):
`IRQ_NONE` (not ours), `IRQ_HANDLED`, `IRQ_WAKE_THREAD`. -/
inductive IrqRet where
  | IRQ_NONE
  | IRQ_HANDLED
  | IRQ_WAKE_THREAD
deriving DecidableEq, Repr

/-- PCM sample formats relevant to the driver, a fragment of ALSA's format
enumeration.  The driver advertises only `s16_le` (`MATRIXIO_FORMATS =
SNDRV_PCM_FMTBIT_S16_LE`). -/
inductive PcmFormat where
  | s8
  | u8
  | s16_le
  | s16_be
  | u16_le
  | u16_be
  | s24_le
  | s32_le
deriving DecidableEq, Repr

/-- Bit width of each PCM format, as ALSA's `snd_pcm_format_width` reports it:
the driver's `hw_params` only checks that this equals 16. -/
def snd_pcm_format_width : PcmFormat → Nat
  | .s8 => 8
  | .u8 => 8
  | .s16_le => 16
  | .s16_be => 16
  | .u16_le => 16
  | .u16_be => 16
  | .s24_le => 24
  | .s32_le => 32

/-- One row of the driver's rate table `matrixio_params`:
sample rate, PDM decimation, and gain in bits. -/
structure RateEntry where
  rate : Nat
  decimation : Nat
  gain : Nat
deriving DecidableEq, Repr

/-- The driver's rate table, transcribed from the `matrixio_params` array in
`src/matrixio-mic.c`. -/
def matrixio_params : List RateEntry :=
  [⟨8000, 374, 1⟩, ⟨12000, 249, 2⟩, ⟨16000, 186, 3⟩,
   ⟨22050, 135, 5⟩, ⟨24000, 124, 5⟩, ⟨32000, 92, 6⟩,
   ⟨44100, 67, 7⟩, ⟨48000, 61, 7⟩, ⟨96000, 30, 10⟩]

/-- The set of supported rates: the rate column of `matrixio_params`. -/
def supportedRates : List Nat := matrixio_params.map (fun e => e.rate)

/-- The authoritative rate table of the specification (its section 6), as
`(rate, decimation, gain_bits)` triples. -/
def authoritativeRateTable : List (Nat × Nat × Nat) :=
  [(8000, 374, 1), (12000, 249, 2), (16000, 186, 3),
   (22050, 135, 5), (24000, 124, 5), (32000, 92, 6),
   (44100, 67, 7), (48000, 61, 7), (96000, 30, 10)]

/-- Modelled from the spec: the FIR coefficient table `FIR_Coeff` lives in
`fir_coeff.h`, which is not among the sources; per the spec, each supported
rate selects exactly one FIR coefficient vector of `FIR_TAP_SIZE` 16-bit
words, so the table's rate column consists of the nine supported rates.  The
coefficient vectors themselves are opaque; an upload is recorded by the rate
that selected it. -/
def FIR_Coeff_rates : List Nat :=
  [8000, 12000, 16000, 22050, 24000, 32000, 44100, 48000, 96000]

/-- Base address of the mic-array sample window, `MATRIXIO_MICARRAY_BASE`
(0x2000 both in `matrixio-pcm.c` and in the spec's register map). -/
def MATRIXIO_MICARRAY_BASE : Nat := 0x2000

/-- The format mask the driver advertises at `open`
(`MATRIXIO_FORMATS = SNDRV_PCM_FMTBIT_S16_LE`), as a list of formats. -/
def MATRIXIO_FORMATS : List PcmFormat := [PcmFormat.s16_le]

/-- A write issued to the coprocessor during `hw_params`: either a single
configuration-register write (`regmap_write`) or the FIR coefficient block
upload (`matrixio_write` of `firTapSize` words, tagged by the rate whose
vector is uploaded). -/
inductive BusEvent where
  | regWrite (addr : Nat) (val : Nat)
  | firWrite (base : Nat) (len : Nat) (rate : Nat)
deriving DecidableEq, Repr

/-- The session state of `struct matrixio_mic_substream` together with the
parts of the substream runtime the driver touches: the bound substream
handle (`ms->substream`, `none` when unbound), flag bit 0 (`running`), flag
bit 1 (`xfer_in_flight`), the atomic `position`, the ring buffer
(`runtime->dma_area`, as a 16-bit-word-indexed map), and whether the DMA
area is present (`runtime->dma_area != NULL`). -/
structure MicState where
  substream : Option Nat
  running : Bool
  xferInFlight : Bool
  position : Nat
  ring : Nat → Nat
  dmaPresent : Bool

/-- Write value `v` at word address `a` of a word-indexed memory. -/
def store (f : Nat → Nat) (a v : Nat) : Nat → Nat :=
  fun x => if x = a then v else f x

/-- The inner loop of the bottom half's deinterleave: for `c` from 0 to
`n - 1`, write `frag[c * pf + i]` at word address `base + c`
(`*buf++ = ms->frag_buffer[c * MATRIXIO_PERIOD_FRAMES + i]`). -/
def chanLoop (frag : Nat → Nat) (pf i base : Nat) : Nat → (Nat → Nat) → Nat → Nat
  | 0, ring => ring
  | c + 1, ring => store (chanLoop frag pf i base c ring) (base + c) (frag (c * pf + i))

/-- The outer loop of the bottom half's deinterleave: for `i` from 0 to
`n - 1`, run the channel loop at word address `base + i * ch`. -/
def frameLoop (frag : Nat → Nat) (pf ch base : Nat) : Nat → (Nat → Nat) → Nat → Nat
  | 0, ring => ring
  | i + 1, ring => chanLoop frag pf i (base + i * ch) ch (frameLoop frag pf ch base i ring)

/-- Result of one bottom-half execution: the new state, the handler's return
value, and whether `snd_pcm_period_elapsed` was called. -/
structure ThreadOut where
  s : MicState
  ret : IrqRet
  elapsed : Bool

/-- The threaded bottom half `matrixio_pcm_thread`.  `readOk` is the outcome
of the `matrixio_read` SPI block read and `frag` the fragment it produced;
`pf` is `MATRIXIO_PERIOD_FRAMES`, `ch` the runtime channel count, `buf` the
runtime `buffer_size` in frames.  Following the source: the
`xfer_in_flight` bit is cleared unconditionally after the read; a failed
read, a cleared `running` bit, or a missing DMA area each end the handler
with `IRQ_HANDLED`; otherwise the fragment is deinterleaved into the ring
starting at frame `position`, and `position` advances by `pf` with a
conditional wrap at `buffer_size`. -/
def matrixio_pcm_thread (pf ch buf : Nat) (readOk : Bool) (frag : Nat → Nat)
    (s : MicState) : ThreadOut :=
  let s0 : MicState := { s with xferInFlight := false }
  if readOk = false then ⟨s0, .IRQ_HANDLED, false⟩
  else if s0.running = false then ⟨s0, .IRQ_HANDLED, false⟩
  else if s0.dmaPresent = false then ⟨s0, .IRQ_HANDLED, false⟩
  else
    let pos := s0.position
    let ring1 := frameLoop frag pf ch (pos * ch) pf s0.ring
    let posA := pos + pf
    let pos2 := if buf ≤ posA then posA - buf else posA
    ⟨{ s0 with ring := ring1, position := pos2 }, .IRQ_HANDLED, true⟩

/-- Result of one top-half execution: the new state, the handler's return
value, and whether the overflow warning (`pcm_warn`) was emitted. -/
structure IrqOut where
  s : MicState
  ret : IrqRet
  warned : Bool

/-- The hard-IRQ top half `matrixio_pcm_interrupt`: `IRQ_NONE` when no
substream is bound; `IRQ_HANDLED` when `running` is clear; otherwise
test-and-set `xfer_in_flight`, warn exactly when it was already set, and
return `IRQ_WAKE_THREAD`. -/
def matrixio_pcm_interrupt (s : MicState) : IrqOut :=
  if s.substream = none then ⟨s, .IRQ_NONE, false⟩
  else if s.running = false then ⟨s, .IRQ_HANDLED, false⟩
  else ⟨{ s with xferInFlight := true }, .IRQ_WAKE_THREAD, s.xferInFlight⟩

/-- The `open` callback `matrixio_pcm_open`: fail with `EBUSY` if a substream
is already bound; otherwise bind the new substream, reset `position`, clear
`running`, and request the threaded IRQ (`irqReq` is its outcome; on failure
the substream is detached again and the error propagated). -/
def matrixio_pcm_open (sub : Nat) (irqReq : Except Errno Unit) (s : MicState) :
    MicState × Except Errno Unit :=
  if s.substream ≠ none then (s, .error .EBUSY)
  else
    let s1 : MicState := { s with substream := some sub, position := 0, running := false }
    match irqReq with
    | .ok _ => (s1, .ok ())
    | .error e => ({ s1 with substream := none }, .error e)

/-- Trigger commands handled by `matrixio_pcm_trigger`. -/
inductive TriggerCmd where
  | start
  | stop
  | other
deriving DecidableEq, Repr

/-- The `trigger` callback `matrixio_pcm_trigger`: `START` sets `running`,
`STOP` clears it under `worker_lock`, anything else is `-EINVAL`. -/
def matrixio_pcm_trigger (s : MicState) : TriggerCmd → MicState × Except Errno Unit
  | .start => ({ s with running := true }, .ok ())
  | .stop => ({ s with running := false }, .ok ())
  | .other => (s, .error .EINVAL)

/-- The `prepare` callback `matrixio_pcm_prepare`: reject with `-EINVAL` any
period size other than `MATRIXIO_PERIOD_FRAMES` (`pf`), else reset
`position` to 0. -/
def matrixio_pcm_prepare (pf periodSize : Nat) (s : MicState) :
    MicState × Except Errno Unit :=
  if periodSize ≠ pf then (s, .error .EINVAL)
  else ({ s with position := 0 }, .ok ())

/-- The `pointer` callback `matrixio_pcm_pointer`: read `position`. -/
def matrixio_pcm_pointer (s : MicState) : Nat := s.position

/-- The `hw_params` callback `matrixio_pcm_hw_params`, returning its result
and the list of bus writes it issued, in order.  Following the source:
reject formats whose width is not 16; search `matrixio_params` for the rate
and on the first match write decimation to `confBase + 0x06` and gain to
`confBase + 0x07`; reject the rate if the search fails; then search the FIR
table and upload the matching coefficient vector, rejecting the rate if the
sentinel is reached.  Buffer allocation is modelled as succeeding. -/
def matrixio_pcm_hw_params (confBase firTapSize : Nat) (fmt : PcmFormat)
    (rate : Nat) : Except Errno Unit × List BusEvent :=
  if snd_pcm_format_width fmt ≠ 16 then (.error .EINVAL, [])
  else
    match matrixio_params.find? (fun e => e.rate == rate) with
    | none => (.error .EINVAL, [])
    | some e =>
      let evs := [BusEvent.regWrite (confBase + 0x06) e.decimation,
                  BusEvent.regWrite (confBase + 0x07) e.gain]
      match FIR_Coeff_rates.find? (fun r => r == rate) with
      | none => (.error .EINVAL, evs)
      | some _ => (.ok (), evs ++ [BusEvent.firWrite MATRIXIO_MICARRAY_BASE firTapSize rate])

/-- Interrupt-pipeline events that can occur between framework callbacks: a
top-half execution, or a bottom-half execution with a given read outcome and
fragment. -/
inductive MicEvent where
  | irqTop
  | irqThread (readOk : Bool) (frag : Nat → Nat)

/-- State transition of one interrupt-pipeline event. -/
def irqStep (pf ch buf : Nat) (s : MicState) : MicEvent → MicState
  | .irqTop => (matrixio_pcm_interrupt s).s
  | .irqThread readOk frag => (matrixio_pcm_thread pf ch buf readOk frag s).s

/-- `n` successive successful bottom-half completions (each with a successful
read of fragment `frag`). -/
def threadIter (pf ch buf : Nat) (frag : Nat → Nat) : Nat → MicState → MicState
  | 0, s => s
  | n + 1, s => threadIter pf ch buf frag n (matrixio_pcm_thread pf ch buf true frag s).s

/-! ## Helper lemmas about the deinterleave loops -/

lemma chanLoop_at (frag : Nat → Nat) (pf i base : Nat) :
    ∀ n (ring : Nat → Nat) (c : Nat), c < n →
      chanLoop frag pf i base n ring (base + c) = frag (c * pf + i) := by
  intro n
  induction n with
  | zero => intro ring c hc; omega
  | succ m ih =>
    intro ring c hc
    by_cases h : c = m
    · subst h
      simp [chanLoop, store]
    · have hne : base + c ≠ base + m := by omega
      simp only [chanLoop, store, if_neg hne]
      exact ih ring c (by omega)

lemma chanLoop_out (frag : Nat → Nat) (pf i base : Nat) :
    ∀ n (ring : Nat → Nat) (x : Nat), x < base ∨ base + n ≤ x →
      chanLoop frag pf i base n ring x = ring x := by
  intro n
  induction n with
  | zero => intro ring x _; rfl
  | succ m ih =>
    intro ring x hx
    have hne : x ≠ base + m := by omega
    simp only [chanLoop, store, if_neg hne]
    exact ih ring x (by omega)

lemma frameLoop_at (frag : Nat → Nat) (pf ch base : Nat) :
    ∀ n (ring : Nat → Nat) (i c : Nat), i < n → c < ch →
      frameLoop frag pf ch base n ring (base + i * ch + c) = frag (c * pf + i) := by
  intro n
  induction n with
  | zero => intro ring i c hi _; omega
  | succ m ih =>
    intro ring i c hi hc
    by_cases h : i = m
    · subst h
      have haddr : base + i * ch + c = (base + i * ch) + c := by omega
      rw [haddr]
      simp only [frameLoop]
      exact chanLoop_at frag pf i (base + i * ch) ch _ c hc
    · have hlt : i < m := by omega
      have hout : base + i * ch + c < base + m * ch := by
        have h1 : i * ch + c < (i + 1) * ch := by
          rw [Nat.add_mul]
          omega
        have h2 : (i + 1) * ch ≤ m * ch := Nat.mul_le_mul_right ch (by omega)
        omega
      simp only [frameLoop]
      rw [chanLoop_out frag pf m (base + m * ch) ch _ _ (Or.inl hout)]
      exact ih ring i c hlt hc

lemma frameLoop_out (frag : Nat → Nat) (pf ch base : Nat) :
    ∀ n (ring : Nat → Nat) (x : Nat), x < base ∨ base + n * ch ≤ x →
      frameLoop frag pf ch base n ring x = ring x := by
  intro n
  induction n with
  | zero => intro ring x _; rfl
  | succ m ih =>
    intro ring x hx
    have hsm : (m + 1) * ch = m * ch + ch := Nat.succ_mul m ch
    have hout : x < base + m * ch ∨ base + m * ch + ch ≤ x := by omega
    simp only [frameLoop]
    rw [chanLoop_out frag pf m (base + m * ch) ch _ _ (by omega)]
    exact ih ring x (by omega)

/-! ## Claims -/

/-- C2: one successful bottom-half completion while running (`running` set,
DMA area present, read ok) writes into the ring, starting at frame `P =
position`, exactly the interleaved fragment: ring word `(P + i) * ch + c`
(frame `P + i`, channel `c`) receives `frag (c * pf + i)` for every
`i < pf` and `c < ch`, and every ring word outside the window
`[P * ch, P * ch + pf * ch)` is unchanged. -/
theorem C2_deinterleave (pf ch buf : Nat) (frag : Nat → Nat) (s : MicState)
    (hch1 : 1 ≤ ch) (hch8 : ch ≤ 8)
    (hrun : s.running = true) (hdma : s.dmaPresent = true) :
    (∀ i c, i < pf → c < ch →
      (matrixio_pcm_thread pf ch buf true frag s).s.ring ((s.position + i) * ch + c) =
        frag (c * pf + i)) ∧
    (∀ j, j < s.position * ch ∨ s.position * ch + pf * ch ≤ j →
      (matrixio_pcm_thread pf ch buf true frag s).s.ring j = s.ring j) := by
  have hring : (matrixio_pcm_thread pf ch buf true frag s).s.ring =
      frameLoop frag pf ch (s.position * ch) pf s.ring := by
    simp only [matrixio_pcm_thread, hrun, hdma]
    rfl
  constructor
  · intro i c hi hc
    rw [hring]
    have haddr : (s.position + i) * ch + c = s.position * ch + i * ch + c := by
      rw [Nat.add_mul]
    rw [haddr]
    exact frameLoop_at frag pf ch (s.position * ch) pf s.ring i c hi hc
  · intro j hj
    rw [hring]
    exact frameLoop_out frag pf ch (s.position * ch) pf s.ring j hj

/-- Witness for C2 at `pf = 2`, `ch = 2`, prior position 1, with
`frag k = k`: ring word for frame 2 (`= 1 + 1`), channel 1 receives
`frag (1 * 2 + 1) = 3`, and word 0 (before the window) is untouched. -/
theorem C2_deinterleave_witness :
    (1 ≤ 2 ∧ 2 ≤ 8) ∧
    (matrixio_pcm_thread 2 2 8 true (fun k => k)
      ⟨some 0, true, true, 1, fun _ => 7, true⟩).s.ring ((1 + 1) * 2 + 1) = 3 ∧
    (matrixio_pcm_thread 2 2 8 true (fun k => k)
      ⟨some 0, true, true, 1, fun _ => 7, true⟩).s.ring 0 = 7 :=
  ⟨⟨by decide, by decide⟩,
   (C2_deinterleave 2 2 8 (fun k => k) ⟨some 0, true, true, 1, fun _ => 7, true⟩
      (by decide) (by decide) rfl rfl).1 1 1 (by decide) (by decide),
   (C2_deinterleave 2 2 8 (fun k => k) ⟨some 0, true, true, 1, fun _ => 7, true⟩
      (by decide) (by decide) rfl rfl).2 0 (by decide)⟩

/-- C5: the top half returns `IRQ_NONE` when no substream is bound; returns
`IRQ_HANDLED` leaving the state (in particular `xfer_in_flight`) untouched
when `running` is clear; otherwise test-and-sets `xfer_in_flight`, returns
`IRQ_WAKE_THREAD`, warns exactly when `xfer_in_flight` was already set, and
leaves the session running. -/
theorem C5_top_half (s : MicState) :
    (s.substream = none → matrixio_pcm_interrupt s = ⟨s, .IRQ_NONE, false⟩) ∧
    (s.substream ≠ none → s.running = false →
      matrixio_pcm_interrupt s = ⟨s, .IRQ_HANDLED, false⟩) ∧
    (s.substream ≠ none → s.running = true →
      (matrixio_pcm_interrupt s).ret = .IRQ_WAKE_THREAD ∧
      (matrixio_pcm_interrupt s).s = { s with xferInFlight := true } ∧
      ((matrixio_pcm_interrupt s).warned = true ↔ s.xferInFlight = true) ∧
      (matrixio_pcm_interrupt s).s.running = true) := by
  refine ⟨fun h => ?_, fun h hr => ?_, fun h hr => ?_⟩
  · simp [matrixio_pcm_interrupt, h]
  · simp [matrixio_pcm_interrupt, h, hr]
  · simp [matrixio_pcm_interrupt, h, hr]

/-- Witness for C5: the three top-half cases at concrete states — unbound
substream, bound but stopped, and running with `xfer_in_flight` already set
(the overflow case, which warns and still wakes the thread). -/
theorem C5_top_half_witness :
    matrixio_pcm_interrupt ⟨none, true, false, 0, fun _ => 0, true⟩ =
      ⟨⟨none, true, false, 0, fun _ => 0, true⟩, .IRQ_NONE, false⟩ ∧
    matrixio_pcm_interrupt ⟨some 1, false, false, 0, fun _ => 0, true⟩ =
      ⟨⟨some 1, false, false, 0, fun _ => 0, true⟩, .IRQ_HANDLED, false⟩ ∧
    (matrixio_pcm_interrupt ⟨some 1, true, true, 0, fun _ => 0, true⟩).ret =
      .IRQ_WAKE_THREAD ∧
    (matrixio_pcm_interrupt ⟨some 1, true, true, 0, fun _ => 0, true⟩).warned = true :=
  ⟨(C5_top_half ⟨none, true, false, 0, fun _ => 0, true⟩).1 rfl,
   (C5_top_half ⟨some 1, false, false, 0, fun _ => 0, true⟩).2.1 (by decide) rfl,
   ((C5_top_half ⟨some 1, true, true, 0, fun _ => 0, true⟩).2.2 (by decide) rfl).1,
   (((C5_top_half ⟨some 1, true, true, 0, fun _ => 0, true⟩).2.2 (by decide) rfl).2.2.1).mpr rfl⟩

/-- C8: a second `open` while a substream is already bound fails with `EBUSY`
and returns the state unchanged — the bound substream, `position`, and both
flag bits are exactly as before. -/
theorem C8_double_open_busy (sub x : Nat) (irqReq : Except Errno Unit)
    (s : MicState) (h : s.substream = some x) :
    matrixio_pcm_open sub irqReq s = (s, .error .EBUSY) := by
  simp [matrixio_pcm_open, h]

/-- Witness for C8: opening substream 2 while substream 5 is bound fails with
`EBUSY` and leaves the state unchanged. -/
theorem C8_double_open_busy_witness :
    matrixio_pcm_open 2 (.ok ()) ⟨some 5, true, false, 3, fun _ => 0, true⟩ =
      (⟨some 5, true, false, 3, fun _ => 0, true⟩, .error .EBUSY) :=
  C8_double_open_busy 2 5 (.ok ()) ⟨some 5, true, false, 3, fun _ => 0, true⟩ rfl

/-- C10: when the bottom-half bus read fails, the thread still clears
`xfer_in_flight` and returns `IRQ_HANDLED` without calling
`snd_pcm_period_elapsed`; the ring, `position`, `running` and the bound
substream are untouched (the result state is exactly the input with
`xfer_in_flight` cleared), so if the session was running the next top half
again returns `IRQ_WAKE_THREAD`. -/
theorem C10_read_failure (pf ch buf : Nat) (frag : Nat → Nat) (s : MicState) :
    matrixio_pcm_thread pf ch buf false frag s =
      ⟨{ s with xferInFlight := false }, .IRQ_HANDLED, false⟩ ∧
    (s.substream ≠ none → s.running = true →
      (matrixio_pcm_interrupt (matrixio_pcm_thread pf ch buf false frag s).s).ret =
        .IRQ_WAKE_THREAD) := by
  refine ⟨rfl, fun h hr => ?_⟩
  simp [matrixio_pcm_thread, matrixio_pcm_interrupt, h, hr]

/-- Witness for C10: a failed read at a concrete running state clears
`xfer_in_flight`, returns `IRQ_HANDLED` with no period-elapsed notification,
and the next top half wakes the thread again. -/
theorem C10_read_failure_witness :
    matrixio_pcm_thread 2 2 8 false (fun _ => 0)
      ⟨some 1, true, true, 4, fun _ => 9, true⟩ =
      ⟨⟨some 1, true, false, 4, fun _ => 9, true⟩, .IRQ_HANDLED, false⟩ ∧
    (matrixio_pcm_interrupt (matrixio_pcm_thread 2 2 8 false (fun _ => 0)
      ⟨some 1, true, true, 4, fun _ => 9, true⟩).s).ret = .IRQ_WAKE_THREAD :=
  ⟨(C10_read_failure 2 2 8 (fun _ => 0) ⟨some 1, true, true, 4, fun _ => 9, true⟩).1,
   (C10_read_failure 2 2 8 (fun _ => 0) ⟨some 1, true, true, 4, fun _ => 9, true⟩).2
     (by decide) rfl⟩

/-! ## Helper lemmas about `hw_params` -/

lemma find_params_eq_none (rate : Nat) (h : rate ∉ supportedRates) :
    matrixio_params.find? (fun e => e.rate == rate) = none := by
  rw [List.find?_eq_none]
  intro e he hbe
  exact h (List.mem_map.mpr ⟨e, he, by simpa using hbe⟩)

lemma hw_params_ok_of_supported (confBase firTapSize rate : Nat)
    (h : rate ∈ supportedRates) :
    (matrixio_pcm_hw_params confBase firTapSize .s16_le rate).1 = .ok () := by
  simp [supportedRates, matrixio_params] at h
  rcases h with rfl | rfl | rfl | rfl | rfl | rfl | rfl | rfl | rfl <;> rfl

lemma hw_params_result (confBase firTapSize : Nat) (fmt : PcmFormat) (rate : Nat) :
    (matrixio_pcm_hw_params confBase firTapSize fmt rate).1 = .ok () ∨
    (matrixio_pcm_hw_params confBase firTapSize fmt rate).1 = .error .EINVAL := by
  unfold matrixio_pcm_hw_params
  by_cases hw : snd_pcm_format_width fmt ≠ 16
  · simp [hw]
  · rw [if_neg hw]
    cases hfind : matrixio_params.find? (fun e => e.rate == rate) with
    | none => simp
    | some e =>
      cases hfir : FIR_Coeff_rates.find? (fun r => r == rate) with
      | none => simp
      | some r => simp

lemma prepare_result (pf periodSize : Nat) (s : MicState) :
    (matrixio_pcm_prepare pf periodSize s).2 = .ok () ∨
    (matrixio_pcm_prepare pf periodSize s).2 = .error .EINVAL := by
  by_cases hp : periodSize ≠ pf <;> simp [matrixio_pcm_prepare, hp]

/-- The driver's rate table agrees row by row with the authoritative rate
table of the spec's section 6. -/
lemma matrixio_params_matches_spec :
    matrixio_params.map (fun e => (e.rate, e.decimation, e.gain)) =
      authoritativeRateTable := rfl

/-- C1: for every parameter set the framework can pass to `hw_params` (its
format drawn from the advertised mask `MATRIXIO_FORMATS`), the validation
path — `hw_params` followed by `prepare`, which holds the period-size
check — succeeds exactly when the format is S16LE, the rate is one of the
nine rates of `matrixio_params`, and the period size equals
`MATRIXIO_PERIOD_FRAMES` (`pf`); every failure of either callback is
`-EINVAL` (InvalidParameter). -/
theorem C1_param_validation (pf confBase firTapSize : Nat) (fmt : PcmFormat)
    (rate periodSize : Nat) (s : MicState) (hfmt : fmt ∈ MATRIXIO_FORMATS) :
    (((matrixio_pcm_hw_params confBase firTapSize fmt rate).1 = .ok () ∧
      (matrixio_pcm_prepare pf periodSize s).2 = .ok ()) ↔
      (fmt = PcmFormat.s16_le ∧ rate ∈ supportedRates ∧ periodSize = pf)) ∧
    ((matrixio_pcm_hw_params confBase firTapSize fmt rate).1 = .ok () ∨
     (matrixio_pcm_hw_params confBase firTapSize fmt rate).1 = .error .EINVAL) ∧
    ((matrixio_pcm_prepare pf periodSize s).2 = .ok () ∨
     (matrixio_pcm_prepare pf periodSize s).2 = .error .EINVAL) := by
  have hfle : fmt = PcmFormat.s16_le := by simpa [MATRIXIO_FORMATS] using hfmt
  subst hfle
  refine ⟨⟨fun h => ?_, fun h => ?_⟩,
    hw_params_result confBase firTapSize _ rate, prepare_result pf periodSize s⟩
  · obtain ⟨hok, hprep⟩ := h
    refine ⟨rfl, ?_, ?_⟩
    · by_contra hr
      rw [show (matrixio_pcm_hw_params confBase firTapSize .s16_le rate) =
            (.error .EINVAL, []) by
          simp [matrixio_pcm_hw_params, find_params_eq_none rate hr]] at hok
      exact absurd hok (by simp)
    · by_contra hp
      simp [matrixio_pcm_prepare, hp] at hprep
  · obtain ⟨-, hr, hp⟩ := h
    subst hp
    exact ⟨hw_params_ok_of_supported confBase firTapSize rate hr,
      by simp [matrixio_pcm_prepare]⟩

/-- Witness for C1: S16LE at 48000 Hz with the right period size passes both
`hw_params` and `prepare`. -/
theorem C1_param_validation_witness :
    PcmFormat.s16_le ∈ MATRIXIO_FORMATS ∧
    ((matrixio_pcm_hw_params 0 128 .s16_le 48000).1 = .ok () ∧
     (matrixio_pcm_prepare 64 64 ⟨some 1, false, false, 0, fun _ => 0, true⟩).2 =
       .ok ()) :=
  ⟨by decide,
   ((C1_param_validation 64 0 128 .s16_le 48000 64
      ⟨some 1, false, false, 0, fun _ => 0, true⟩ (by decide)).1).mpr
     ⟨rfl, by decide, rfl⟩⟩

/-- C6: for every row `(rate, decimation, gain_bits)` of the authoritative
rate table, a successful `hw_params` at that rate issues exactly the write
of `decimation` to `CONF_BASE + 0x06`, the write of `gain_bits` to
`CONF_BASE + 0x07`, and the upload of the FIR coefficient vector selected
for the rate to `MATRIXIO_MICARRAY_BASE`, in that order. -/
theorem C6_rate_programming (confBase firTapSize rate d g : Nat)
    (h : (rate, d, g) ∈ authoritativeRateTable) :
    matrixio_pcm_hw_params confBase firTapSize .s16_le rate =
      (.ok (), [BusEvent.regWrite (confBase + 0x06) d,
                BusEvent.regWrite (confBase + 0x07) g,
                BusEvent.firWrite MATRIXIO_MICARRAY_BASE firTapSize rate]) := by
  simp [authoritativeRateTable, Prod.ext_iff] at h
  rcases h with h9 | h9 | h9 | h9 | h9 | h9 | h9 | h9 | h9 <;>
    (obtain ⟨rfl, rfl, rfl⟩ := h9; rfl)

/-- Witness for C6: at 48000 Hz, `hw_params` writes decimation 61 to
`CONF_BASE + 0x06`, gain 7 to `CONF_BASE + 0x07`, and uploads the 48 kHz
FIR vector. -/
theorem C6_rate_programming_witness :
    ((48000, 61, 7) ∈ authoritativeRateTable) ∧
    matrixio_pcm_hw_params 0x1000 128 .s16_le 48000 =
      (.ok (), [BusEvent.regWrite (0x1000 + 0x06) 61,
                BusEvent.regWrite (0x1000 + 0x07) 7,
                BusEvent.firWrite MATRIXIO_MICARRAY_BASE 128 48000]) :=
  ⟨by decide, C6_rate_programming 0x1000 128 48000 61 7 (by decide)⟩

/-- C9: for a rate outside the rate table and a valid (S16LE) format,
`hw_params` fails with `-EINVAL` and issues no bus write at all — no
configuration-register write and no FIR upload. -/
theorem C9_unsupported_rate (confBase firTapSize rate : Nat)
    (h : rate ∉ supportedRates) :
    matrixio_pcm_hw_params confBase firTapSize .s16_le rate =
      (.error .EINVAL, []) := by
  simp [matrixio_pcm_hw_params, find_params_eq_none rate h]

/-- Witness for C9: `hw_params` at 11025 Hz fails with `-EINVAL` and records
no bus write. -/
theorem C9_unsupported_rate_witness :
    (11025 ∉ supportedRates) ∧
    matrixio_pcm_hw_params 0x1000 128 .s16_le 11025 = (.error .EINVAL, []) :=
  ⟨by decide, C9_unsupported_rate 0x1000 128 11025 (by decide)⟩

/-! ## Helper lemmas for the temporal claims -/

lemma irqStep_stopped (pf ch buf : Nat) (s : MicState) (e : MicEvent)
    (h : s.running = false) :
    (irqStep pf ch buf s e).ring = s.ring ∧
    (irqStep pf ch buf s e).position = s.position ∧
    (irqStep pf ch buf s e).running = false := by
  cases e with
  | irqTop =>
    by_cases hs : s.substream = none <;>
      simp [irqStep, matrixio_pcm_interrupt, hs, h]
  | irqThread readOk frag =>
    cases readOk <;> simp [irqStep, matrixio_pcm_thread, h]

lemma foldl_irqStep_stopped (pf ch buf : Nat) :
    ∀ (evs : List MicEvent) (s : MicState), s.running = false →
      (evs.foldl (irqStep pf ch buf) s).ring = s.ring ∧
      (evs.foldl (irqStep pf ch buf) s).position = s.position ∧
      (evs.foldl (irqStep pf ch buf) s).running = false := by
  intro evs
  induction evs with
  | nil => intro s h; exact ⟨rfl, rfl, h⟩
  | cons e evs ih =>
    intro s h
    obtain ⟨h1, h2, h3⟩ := irqStep_stopped pf ch buf s e h
    obtain ⟨g1, g2, g3⟩ := ih (irqStep pf ch buf s e) h3
    exact ⟨g1.trans h1, g2.trans h2, g3⟩

/-- C3: after `trigger(STOP)` returns, no run of interrupt-pipeline events
(top halves or bottom halves, with any read outcomes and fragments) writes
the ring buffer or changes `position` until a `trigger(START)` occurs — the
event alphabet `MicEvent` contains no trigger — and `running` stays clear;
in particular any bottom half racing the stop observes `running = 0` and
returns `IRQ_HANDLED` leaving the ring and `position` unchanged. -/
theorem C3_stop_quiesces (pf ch buf : Nat) (s : MicState) (evs : List MicEvent) :
    (evs.foldl (irqStep pf ch buf) (matrixio_pcm_trigger s .stop).1).ring = s.ring ∧
    (evs.foldl (irqStep pf ch buf) (matrixio_pcm_trigger s .stop).1).position =
      s.position ∧
    (evs.foldl (irqStep pf ch buf) (matrixio_pcm_trigger s .stop).1).running = false ∧
    (∀ readOk frag,
      (matrixio_pcm_thread pf ch buf readOk frag
        (matrixio_pcm_trigger s .stop).1).ret = .IRQ_HANDLED) := by
  have h := foldl_irqStep_stopped pf ch buf evs (matrixio_pcm_trigger s .stop).1 rfl
  refine ⟨h.1, h.2.1, h.2.2, fun readOk frag => ?_⟩
  cases readOk <;> simp [matrixio_pcm_thread, matrixio_pcm_trigger]

/-- C4: with `buffer_frames` a positive multiple of the period size, the
published position (`pointer`) stays in `[0, buffer_frames)` — the lower
bound holding by the `Nat` embedding — across `open`, `prepare`, and any
bottom-half execution, starting from any state satisfying the bound. -/
theorem C4_position_bound (pf buf k ch sub periodSize : Nat)
    (irqReq : Except Errno Unit) (readOk : Bool) (frag : Nat → Nat) (s : MicState)
    (hbuf : buf = k * pf) (hpos : 0 < buf) (hs : s.position < buf) :
    matrixio_pcm_pointer (matrixio_pcm_open sub irqReq s).1 < buf ∧
    matrixio_pcm_pointer (matrixio_pcm_prepare pf periodSize s).1 < buf ∧
    matrixio_pcm_pointer (matrixio_pcm_thread pf ch buf readOk frag s).s < buf := by
  have hk : 0 < k := by
    rcases Nat.eq_zero_or_pos k with rfl | h
    · simp at hbuf; omega
    · exact h
  have hple : pf ≤ buf := by
    rw [hbuf]
    exact Nat.le_mul_of_pos_left pf hk
  refine ⟨?_, ?_, ?_⟩
  · rcases hsub : s.substream with _ | x
    · cases irqReq with
      | ok u => simpa [matrixio_pcm_open, matrixio_pcm_pointer, hsub] using hpos
      | error e => simpa [matrixio_pcm_open, matrixio_pcm_pointer, hsub] using hpos
    · simpa [matrixio_pcm_open, matrixio_pcm_pointer, hsub] using hs
  · by_cases hp : periodSize ≠ pf
    · simpa [matrixio_pcm_prepare, matrixio_pcm_pointer, hp] using hs
    · simpa [matrixio_pcm_prepare, matrixio_pcm_pointer, hp] using hpos
  · cases readOk with
    | false => simpa [matrixio_pcm_thread, matrixio_pcm_pointer] using hs
    | true =>
      cases hr : s.running with
      | false => simpa [matrixio_pcm_thread, matrixio_pcm_pointer, hr] using hs
      | true =>
        cases hd : s.dmaPresent with
        | false => simpa [matrixio_pcm_thread, matrixio_pcm_pointer, hr, hd] using hs
        | true =>
          simp [matrixio_pcm_thread, matrixio_pcm_pointer, hr, hd]
          split <;> omega

/-- Witness for C4 at `pf = 2`, `buf = 8 = 4 * 2`, prior position 6: the
position after `open` (busy path), `prepare`, and a wrapping bottom half is
below 8. -/
theorem C4_position_bound_witness :
    ((8 : Nat) = 4 * 2 ∧ (0 : Nat) < 8 ∧
      (⟨some 1, true, false, 6, fun _ => 0, true⟩ : MicState).position < 8) ∧
    (matrixio_pcm_pointer (matrixio_pcm_open 1 (.ok ())
        ⟨some 1, true, false, 6, fun _ => 0, true⟩).1 < 8 ∧
     matrixio_pcm_pointer (matrixio_pcm_prepare 2 2
        ⟨some 1, true, false, 6, fun _ => 0, true⟩).1 < 8 ∧
     matrixio_pcm_pointer (matrixio_pcm_thread 2 1 8 true (fun _ => 0)
        ⟨some 1, true, false, 6, fun _ => 0, true⟩).s < 8) :=
  ⟨⟨by decide, by decide, by decide⟩,
   C4_position_bound 2 8 4 1 1 2 (.ok ()) true (fun _ => 0)
     ⟨some 1, true, false, 6, fun _ => 0, true⟩ (by decide) (by decide) (by decide)⟩

lemma thread_step_state (pf ch buf : Nat) (frag : Nat → Nat) (s : MicState)
    (hrun : s.running = true) (hdma : s.dmaPresent = true) :
    (matrixio_pcm_thread pf ch buf true frag s).s.position =
      (if buf ≤ s.position + pf then s.position + pf - buf else s.position + pf) ∧
    (matrixio_pcm_thread pf ch buf true frag s).s.running = true ∧
    (matrixio_pcm_thread pf ch buf true frag s).s.dmaPresent = true := by
  simp [matrixio_pcm_thread, hrun, hdma]

lemma threadIter_position (pf ch buf : Nat) (frag : Nat → Nat)
    (hple : pf ≤ buf) :
    ∀ n (s : MicState), s.position < buf → s.running = true → s.dmaPresent = true →
      (threadIter pf ch buf frag n s).position = (s.position + n * pf) % buf := by
  intro n
  induction n with
  | zero => intro s hpos _ _; simp [threadIter, Nat.mod_eq_of_lt hpos]
  | succ m ih =>
    intro s hpos hrun hdma
    obtain ⟨hp, hr, hd⟩ := thread_step_state pf ch buf frag s hrun hdma
    have hlt : (matrixio_pcm_thread pf ch buf true frag s).s.position < buf := by
      rw [hp]; split <;> omega
    have heq : (matrixio_pcm_thread pf ch buf true frag s).s.position =
        (s.position + pf) % buf := by
      rw [hp]
      by_cases hge : buf ≤ s.position + pf
      · rw [if_pos hge, Nat.mod_eq_sub_mod hge, Nat.mod_eq_of_lt (by omega)]
      · rw [if_neg hge, Nat.mod_eq_of_lt (by omega)]
    have hrec := ih (matrixio_pcm_thread pf ch buf true frag s).s hlt hr hd
    have harith : s.position + pf + m * pf = s.position + (m + 1) * pf := by
      rw [Nat.succ_mul]; omega
    calc (threadIter pf ch buf frag (m + 1) s).position
        = (threadIter pf ch buf frag m
            (matrixio_pcm_thread pf ch buf true frag s).s).position := rfl
      _ = ((matrixio_pcm_thread pf ch buf true frag s).s.position + m * pf) % buf :=
            hrec
      _ = ((s.position + pf) % buf + m * pf) % buf := by rw [heq]
      _ = (s.position + pf + m * pf) % buf := Nat.mod_add_mod _ _ _
      _ = (s.position + (m + 1) * pf) % buf := by rw [harith]

/-- C7: starting from any position, `n` successful bottom-half completions
while running advance `position` by exactly `n * pf` modulo `buffer_frames`
(with `buffer_frames` a positive multiple of the period size `pf`). -/
theorem C7_position_advance (pf ch buf k n : Nat) (frag : Nat → Nat) (s : MicState)
    (hbuf : buf = k * pf) (h0 : 0 < buf) (hpos : s.position < buf)
    (hrun : s.running = true) (hdma : s.dmaPresent = true) :
    (threadIter pf ch buf frag n s).position = (s.position + n * pf) % buf := by
  have hk : 0 < k := by
    rcases Nat.eq_zero_or_pos k with rfl | h
    · simp at hbuf; omega
    · exact h
  have hple : pf ≤ buf := by
    rw [hbuf]
    exact Nat.le_mul_of_pos_left pf hk
  exact threadIter_position pf ch buf frag hple n s hpos hrun hdma

/-- Witness for C7: with `buffer_frames = 4 × pf` (`pf = 2`, `buf = 8`), five
periods from position 0 leave `position = (0 + 5 * 2) % 8 = 2 = pf`, the
spec's wrap-around scenario S6. -/
theorem C7_position_advance_witness :
    ((8 : Nat) = 4 * 2 ∧
      (⟨some 1, true, false, 0, fun _ => 0, true⟩ : MicState).position < 8) ∧
    (threadIter 2 1 8 (fun _ => 0) 5
      ⟨some 1, true, false, 0, fun _ => 0, true⟩).position = (0 + 5 * 2) % 8 ∧
    (0 + 5 * 2) % 8 = 2 :=
  ⟨⟨by decide, by decide⟩,
   C7_position_advance 2 1 8 4 5 (fun _ => 0)
     ⟨some 1, true, false, 0, fun _ => 0, true⟩ (by decide) (by decide) (by decide)
     rfl rfl,
   by decide⟩
